import Mathlib

/-!
# Verification of the graph-skills orchestrator core

Shallow embedding of the TypeScript sources of the skills-marketplace
repository:

* `scripts/types.ts` — the data model (GraphNode, Graph, ExecutionContext,
  NodeResult, GraphResult, ModelRoutingDecision);
* `scripts/model-router.ts` — the ModelRouter (selectModel,
  selectModelByHeuristics, explainSelection, estimateCost, MODEL_CONFIGS,
  DEFAULT_MODELS);
* `scripts/orchestrator.ts` — the GraphOrchestrator (execute, executeNode,
  topologicalSort, prepareDependencyInputs, buildPrompt,
  extractFinalOutput, estimateComplexity).

JavaScript `Record`s are modelled as association lists with the insertion
order of the object (keys unique in every concrete graph we build, first
match on lookup).  JavaScript values flowing through the execution context
are modelled by `JsValue`; only null, booleans, integers and strings are
needed by the properties under verification, and truthiness (`||`, `if (x)`)
is the JavaScript rule on those constructors.  Wall-clock timing and
token-count metrics are not modelled (real time); the metric fields the
claims mention (nodeCount, successCount, failureCount) are kept.
The external subagent invocation (`invokeSubagent`, an awaited call that
either resolves with a value or rejects) is a parameter `Backend` of the
run, exactly the collaborator contract the orchestrator consumes.
-/

/-- JavaScript values that appear in the execution context.  Structured
objects are not needed by any verified property; a backend output is an
opaque `JsValue`. -/
inductive JsValue where
  | vNull : JsValue
  | vBool : Bool → JsValue
  | vNum : Int → JsValue
  | vStr : String → JsValue
deriving DecidableEq, Repr

/-- JavaScript truthiness on the modelled values: `null`, `false`, `0` and
`""` are falsy, everything else is truthy. -/
def JsValue.truthy : JsValue → Bool
  | .vNull => false
  | .vBool b => b
  | .vNum n => n != 0
  | .vStr s => s != ""

/-- `Record<string, v>` read: first entry with the key (keys are unique in a
JS object, so first = only). -/
def recordGet {α : Type} (r : List (String × α)) (k : String) : Option α :=
  (r.find? (fun p => p.1 == k)).map Prod.snd

/-- `Record<string, v>` write `r[k] = v`: overwrite in place when the key
exists, append otherwise (JS object insertion order). -/
def recordSet {α : Type} (r : List (String × α)) (k : String) (v : α) :
    List (String × α) :=
  if r.any (fun p => p.1 == k) then
    r.map (fun p => if p.1 == k then (k, v) else p)
  else r ++ [(k, v)]

/-- Does the first character list start with the second? -/
def listStartsWith : List Char → List Char → Bool
  | _, [] => true
  | [], _ :: _ => false
  | a :: as, b :: bs => a == b && listStartsWith as bs

/-- Does the first character list contain the second as a contiguous run? -/
def listContainsSub : List Char → List Char → Bool
  | [], sub => sub.isEmpty
  | a :: as, sub => listStartsWith (a :: as) sub || listContainsSub as sub

/-- `String.prototype.includes`: substring test, via the character lists. -/
def strIncludes (s sub : String) : Bool :=
  listContainsSub s.toList sub.toList

/-- `SubagentType` from types.ts. -/
inductive SubagentType where
  | explore : SubagentType
  | plan : SubagentType
  | generalPurpose : SubagentType
deriving DecidableEq, Repr

/-- `ClaudeModel` from types.ts: the three cost/capability tiers. -/
inductive ClaudeModel where
  | haiku : ClaudeModel
  | sonnet : ClaudeModel
  | opus : ClaudeModel
deriving DecidableEq, Repr

/-- `GraphNode` from types.ts.  `dependencies` and `model` are the optional
fields; `metadata` carries no semantics and is dropped. -/
structure GraphNode where
  agent : SubagentType
  task : String
  dependencies : Option (List String)
  model : Option ClaudeModel
  output : String
deriving DecidableEq, Repr

/-- `Graph` from types.ts: the node record plus the optional entry id. -/
structure Graph where
  nodes : List (String × GraphNode)
  entry : Option String
deriving DecidableEq, Repr

/-- `graph.nodes[id]` — record lookup. -/
def lookupNode (g : Graph) (id : String) : Option GraphNode :=
  recordGet g.nodes id

/-- The dependency list of a node; `node.dependencies` is optional and the
code iterates it only when present, which is the same as iterating the
empty list when absent. -/
def depsOf (node : GraphNode) : List String :=
  node.dependencies.getD []

/-- The keys of the node record, in declaration order (`Object.keys`). -/
def graphKeys (g : Graph) : List String :=
  g.nodes.map Prod.fst

/-! ## Model router (model-router.ts) -/

/-- `costPer1MInputTokens` of MODEL_CONFIGS, as an exact rational
(haiku 0.80, sonnet 15.00, opus 75.00). -/
def costPer1MInputTokens : ClaudeModel → ℚ
  | .haiku => 4/5
  | .sonnet => 15
  | .opus => 75

/-- `costPer1MOutputTokens` of MODEL_CONFIGS, as an exact rational
(haiku 4.00, sonnet 75.00, opus 375.00). -/
def costPer1MOutputTokens : ClaudeModel → ℚ
  | .haiku => 4
  | .sonnet => 75
  | .opus => 375

/-- `DEFAULT_MODELS`: default tier per subagent type. -/
def DEFAULT_MODELS : SubagentType → ClaudeModel
  | .explore => .haiku
  | .plan => .sonnet
  | .generalPurpose => .sonnet

/-- `ModelRouter.estimateCost`: cost of `inputTokens` input and
`outputTokens` output tokens at the tier's per-million rates. -/
def estimateCost (model : ClaudeModel) (inputTokens outputTokens : ℚ) : ℚ :=
  inputTokens / 1000000 * costPer1MInputTokens model
    + outputTokens / 1000000 * costPer1MOutputTokens model

/-- `ModelRoutingDecision` from types.ts. -/
structure ModelRoutingDecision where
  agent : SubagentType
  model : ClaudeModel
  reasoning : String
  estimatedCost : ℚ
deriving DecidableEq, Repr

/-- The `context` argument of `ModelRouter.selectModel`. -/
structure RouterContext where
  fileCount : Option Int
  complexity : Option String
deriving DecidableEq, Repr

/-- The `context.fileCount && context.fileCount > 50` test (a fileCount of
`0` is falsy in JS, but `0 > 50` is false anyway). -/
def fileCountLarge (ctx : RouterContext) : Bool :=
  match ctx.fileCount with
  | none => false
  | some n => n != 0 && n > 50

/-- `ModelRouter.selectModelByHeuristics`: the ordered keyword cascade over
the lowercased task text, then the file-count and complexity fallbacks,
then the per-agent default. -/
def selectModelByHeuristics (node : GraphNode) (ctx : RouterContext) :
    ClaudeModel :=
  let task := node.task.toLower
  if strIncludes task "scan" || strIncludes task "explore" ||
     strIncludes task "find" || strIncludes task "identify" ||
     strIncludes task "count" || strIncludes task "list" then
    .haiku
  else if strIncludes task "analyze" || strIncludes task "understand" ||
     strIncludes task "architecture" || strIncludes task "design" ||
     strIncludes task "pattern" then
    .sonnet
  else if strIncludes task "generate" || strIncludes task "create" ||
     strIncludes task "write" || strIncludes task "compile" then
    .sonnet
  else if fileCountLarge ctx then
    .haiku
  else if ctx.complexity == some "high" then
    .sonnet
  else
    DEFAULT_MODELS node.agent

/-- `ModelRouter.explainSelection`: the joined reason strings. -/
def explainSelection (ctx : RouterContext) (model : ClaudeModel) : String :=
  let reasons : List String :=
    match model with
    | .haiku =>
      ["Optimized for fast, cost-effective execution"] ++
        (if fileCountLarge ctx then
          ["Large file count (" ++ toString (ctx.fileCount.getD 0) ++
            ") benefits from efficient scanning"] else [])
    | .sonnet =>
      ["Requires sophisticated reasoning and analysis"] ++
        (if ctx.complexity == some "high" then
          ["High complexity task needs advanced capabilities"] else [])
    | .opus => ["Highest quality required for critical task"]
  String.intercalate "; " reasons

/-- `ModelRouter.selectModel`: an explicit `node.model` wins outright with
the fixed reasoning string; otherwise the heuristics run. -/
def selectModel (node : GraphNode) (ctx : RouterContext) :
    ModelRoutingDecision :=
  match node.model with
  | some m =>
    { agent := node.agent, model := m,
      reasoning := "Explicitly specified in node definition",
      estimatedCost := estimateCost m 10000 2000 }
  | none =>
    let m := selectModelByHeuristics node ctx
    { agent := node.agent, model := m,
      reasoning := explainSelection ctx m,
      estimatedCost := estimateCost m 10000 2000 }

/-! ## Topological sort (orchestrator.ts, `topologicalSort`)

The source is a recursive DFS with a `visited` set and an `order` output
array; a dependency id missing from the node record throws.  There is no
in-progress marker of any kind, so the function never reports cycles.  The
recursion is modelled with a fuel argument; `nodes.length + 1` fuel is
enough for every call the function makes (proved below), because a fuel
unit is consumed only when a not-yet-visited node is entered. -/

/-- The mutable state of the DFS: the `visited` set (most recent first) and
the `order` array (in push order). -/
structure DfsState where
  visited : List String
  order : List String
deriving DecidableEq, Repr

/-- The `for (const depId of node.dependencies)` loop inside `visit`: a
dependency id absent from the record throws `Dependency not found`,
otherwise the dependency is visited first (the visiting function `vf` is
the recursive `visit` at the remaining fuel). -/
def visitDeps (g : Graph) (vf : String → DfsState → Except String DfsState)
    (parent : String) : List String → DfsState → Except String DfsState
  | [], st => .ok st
  | depId :: rest, st =>
    if (lookupNode g depId).isNone then
      .error ("Dependency not found: " ++ depId ++ " (required by " ++ parent ++ ")")
    else
      match vf depId st with
      | .error e => .error e
      | .ok st' => visitDeps g vf parent rest st'

/-- The inner `visit` closure of `topologicalSort`: skip if visited,
otherwise mark visited, recurse into the dependencies, then push the node
onto the order.  A node id missing from the record makes the JS code read
`.dependencies` of `undefined`, a thrown TypeError (only reachable through
a dangling `graph.entry`). -/
def visit (g : Graph) : Nat → String → DfsState → Except String DfsState
  | 0, _, _ => .error "FUEL"
  | fuel + 1, nodeId, st =>
    if st.visited.contains nodeId then .ok st
    else
      let st1 : DfsState := ⟨nodeId :: st.visited, st.order⟩
      match lookupNode g nodeId with
      | none => .error ("TypeError: reading properties of undefined: " ++ nodeId)
      | some node =>
        match visitDeps g (visit g fuel) nodeId (depsOf node) st1 with
        | .error e => .error e
        | .ok st2 => .ok ⟨st2.visited, st2.order ++ [nodeId]⟩

/-- The entry points of the traversal: the declared entry if present,
otherwise every key whose node has no (or an empty) dependency list. -/
def entryNodes (g : Graph) : List String :=
  match g.entry with
  | some e => [e]
  | none =>
    (graphKeys g).filter (fun k =>
      match lookupNode g k with
      | some n => (depsOf n).isEmpty
      | none => true)

/-- Fuel that suffices for any `visit` call on `g` (one unit per
first-time-visited node, plus one). -/
def sortFuel (g : Graph) : Nat := g.nodes.length + 1

/-- The `for (const entryNode of entryNodes) visit(entryNode)` loop. -/
def visitEntries (g : Graph) : List String → DfsState → Except String DfsState
  | [], st => .ok st
  | e :: rest, st =>
    match visit g (sortFuel g) e st with
    | .error err => .error err
    | .ok st' => visitEntries g rest st'

/-- `GraphOrchestrator.topologicalSort`: returns the computed order
together with the list of unreachable (never visited) keys, which the
source merely `console.warn`s; a missing dependency (or dangling entry)
surfaces as the thrown error. -/
def topologicalSort (g : Graph) :
    Except String (List String × List String) :=
  match visitEntries g (entryNodes g) ⟨[], []⟩ with
  | .error e => .error e
  | .ok st =>
    .ok (st.order, (graphKeys g).filter (fun k => !st.visited.contains k))

/-! ### The concrete graphs of the spec scenarios -/

/-- The two-node cyclic graph of spec scenario 2: `x` depends on `y` and
`y` depends on `x`; no declared entry. -/
def cycleGraph : Graph :=
  { nodes :=
      [("x", { agent := .explore, task := "task x", dependencies := some ["y"],
               model := none, output := "xo" }),
       ("y", { agent := .explore, task := "task y", dependencies := some ["x"],
               model := none, output := "yo" })],
    entry := none }

/-- The same cyclic graph with `x` declared as the entry point. -/
def cycleGraphEntryX : Graph := { cycleGraph with entry := some "x" }

/-- The two-node graph of spec scenario 1: `scan` (no dependencies, output
key "s") and `plan` (depends on `scan`, output key "p"), entry `scan`. -/
def scanPlanGraph : Graph :=
  { nodes :=
      [("scan", { agent := .explore, task := "scan the repository",
                  dependencies := none, model := none, output := "s" }),
       ("plan", { agent := .plan, task := "plan the work",
                  dependencies := some ["scan"], model := none, output := "p" })],
    entry := some "scan" }

/-! ## Execution context and orchestrator run (orchestrator.ts) -/

/-- `ExecutionContext` from types.ts: the per-run output record, the
original input, and the completed/failed id lists (the `startTime`
metadatum is wall-clock time and is not modelled). -/
structure ExecutionContext where
  outputs : List (String × JsValue)
  input : JsValue
  completedNodes : List String
  failedNodes : List String
deriving DecidableEq, Repr

/-- `NodeResult` from types.ts (the wall-clock/token `metrics` block is not
modelled; `output` is `null` on failure exactly as in the source). -/
structure NodeResult where
  nodeId : String
  success : Bool
  output : JsValue
  error : Option String
deriving DecidableEq, Repr

/-- The aggregate `GraphResult.metrics` counters that are not wall-clock or
token quantities. -/
structure GraphMetrics where
  nodeCount : Nat
  successCount : Nat
  failureCount : Nat
deriving DecidableEq, Repr

/-- `GraphResult` from types.ts. -/
structure GraphResult where
  success : Bool
  output : JsValue
  nodeResults : List (String × NodeResult)
  metrics : GraphMetrics
deriving DecidableEq, Repr

/-- The execution-backend collaborator (`invokeSubagent`): given the
selected agent and model, the composed prompt and the dependency-input
map, the awaited call either resolves with an output value or rejects with
an error message (`executeNode` catches the rejection and turns it into a
failed `NodeResult`). -/
def Backend : Type :=
  SubagentType → ClaudeModel → String → List (String × JsValue) →
    Except String JsValue

/-- `GraphOrchestrator.estimateComplexity`: keyword buckets over the
lowercased task text. -/
def estimateComplexity (task : String) : String :=
  let t := task.toLower
  if strIncludes t "analyze architecture" || strIncludes t "deep analysis" ||
     strIncludes t "complex pattern" || strIncludes t "design" then
    "high"
  else if strIncludes t "scan" || strIncludes t "list" ||
     strIncludes t "count" || strIncludes t "find" then
    "low"
  else
    "medium"

/-- `JSON.stringify` on the modelled values (string escaping and the
2-space pretty-printing of the source are presentation only and are not
reproduced character-exactly). -/
def jsonStringify : JsValue → String
  | .vNull => "null"
  | .vBool true => "true"
  | .vBool false => "false"
  | .vNum n => toString n
  | .vStr s => "\"" ++ s ++ "\""

/-- JavaScript strict equality between a number and a string: `===` never
coerces across types, so it is false for every index/id pair.  This is the
comparison `(_, key) => key === depId` inside
`prepareDependencyInputs`, whose `key` parameter is the numeric array
index that `Array.prototype.find` passes as the callback's second
argument. -/
def jsNumStrEq (_idx : Nat) (_s : String) : Bool := false

/-- `GraphOrchestrator.prepareDependencyInputs`: for each declared
dependency id, scan `Object.values(context.outputs)` with a callback that
compares the value's array index against the dependency id, and record the
found value under the dependency id when the scan hits. -/
def prepareDependencyInputs (node : GraphNode) (ctx : ExecutionContext) :
    List (String × JsValue) :=
  (depsOf node).foldl
    (fun inputs depId =>
      match (ctx.outputs.map Prod.snd).enum.find?
          (fun p => jsNumStrEq p.1 depId) with
      | some p => recordSet inputs depId p.2
      | none => inputs)
    []

/-- `GraphOrchestrator.buildPrompt`: task header, the original input when
truthy, one section per dependency input, then the fixed instruction
block. -/
def buildPrompt (node : GraphNode) (dependencyInputs : List (String × JsValue))
    (originalInput : JsValue) : String :=
  let p1 := "Task: " ++ node.task ++ "\n\n"
  let p2 :=
    if originalInput.truthy then
      p1 ++ "Original Input:\n" ++ jsonStringify originalInput ++ "\n\n"
    else p1
  let p3 :=
    if dependencyInputs.length > 0 then
      p2 ++ "Context from Dependencies:\n" ++
        (dependencyInputs.foldl
          (fun s p => s ++ "\n" ++ p.1 ++ ":\n" ++ jsonStringify p.2 ++ "\n")
          "") ++ "\n"
    else p2
  p3 ++ "Instructions:\n" ++
    "1. Complete the task described above\n" ++
    "2. Use the provided context from dependencies\n" ++
    "3. Return results in a structured format\n" ++
    "4. Be concise and focus on the specific task\n"

/-- `GraphOrchestrator.executeNode`: route the model (the orchestrator
passes only the estimated complexity), gather dependency inputs, build the
prompt, await the backend; a rejection is caught and becomes a failed
`NodeResult` with a `null` output. -/
def executeNode (backend : Backend) (nodeId : String) (node : GraphNode)
    (ctx : ExecutionContext) : NodeResult :=
  let routing := selectModel node
    { fileCount := none, complexity := some (estimateComplexity node.task) }
  let nodeInput := prepareDependencyInputs node ctx
  let prompt := buildPrompt node nodeInput ctx.input
  match backend routing.agent routing.model prompt nodeInput with
  | .ok out =>
    { nodeId := nodeId, success := true, output := out, error := none }
  | .error e =>
    { nodeId := nodeId, success := false, output := .vNull, error := some e }

/-- The `for (const nodeId of executionOrder)` loop of
`GraphOrchestrator.execute`: on success write the declared output key and
mark completed; on failure mark failed and break (fail fast).  An order id
missing from the node record would make the source read `node.agent` of
`undefined` outside the `try`, an uncaught TypeError that rejects the
whole run — modelled as the `.error` case (unreachable for orders produced
by `topologicalSort`). -/
def runNodes (g : Graph) (backend : Backend) :
    List String → ExecutionContext → List (String × NodeResult) →
    Except String (ExecutionContext × List (String × NodeResult))
  | [], ctx, acc => .ok (ctx, acc)
  | nodeId :: rest, ctx, acc =>
    match lookupNode g nodeId with
    | none => .error ("TypeError: reading properties of undefined: " ++ nodeId)
    | some node =>
      let r := executeNode backend nodeId node ctx
      if r.success then
        runNodes g backend rest
          { ctx with
              outputs := recordSet ctx.outputs node.output r.output,
              completedNodes := ctx.completedNodes ++ [nodeId] }
          (acc ++ [(nodeId, r)])
      else
        .ok ({ ctx with failedNodes := ctx.failedNodes ++ [nodeId] },
             acc ++ [(nodeId, r)])

/-- `GraphOrchestrator.extractFinalOutput`: the context value under the
declared output key of the last node of the execution order, with
`|| null` collapsing an absent or falsy value to `null`; `null` for an
empty order.  (The last order id is always a record key for orders
produced by `topologicalSort`, so the `none` lookup case is unreachable.) -/
def extractFinalOutput (g : Graph) (ctx : ExecutionContext)
    (executionOrder : List String) : JsValue :=
  match executionOrder.getLast? with
  | none => .vNull
  | some lastNodeId =>
    match lookupNode g lastNodeId with
    | none => .vNull
    | some lastNode =>
      match recordGet ctx.outputs lastNode.output with
      | some v => if v.truthy then v else .vNull
      | none => .vNull

/-- The fresh `ExecutionContext` that `GraphOrchestrator.execute` creates
at the start of a run. -/
def initialContext (input : JsValue) : ExecutionContext :=
  { outputs := [], input := input, completedNodes := [], failedNodes := [] }

/-- `GraphOrchestrator.execute`: compute the order (a thrown graph error
propagates out of the run), execute the nodes in order with the fail-fast
loop, then assemble the `GraphResult` (success iff no failed node, final
output via `extractFinalOutput`, and the counter metrics). -/
def execute (g : Graph) (backend : Backend) (input : JsValue) :
    Except String GraphResult :=
  match topologicalSort g with
  | .error e => .error e
  | .ok (executionOrder, _unreachable) =>
    match runNodes g backend executionOrder (initialContext input) [] with
    | .error e => .error e
    | .ok (ctx, nodeResults) =>
      .ok { success := ctx.failedNodes.length == 0,
            output := extractFinalOutput g ctx executionOrder,
            nodeResults := nodeResults,
            metrics :=
              { nodeCount := executionOrder.length,
                successCount := ctx.completedNodes.length,
                failureCount := ctx.failedNodes.length } }

/-! ### Concrete run scenarios used by the claims -/

/-- The 3-node chain of the fail-fast scenario: `B` depends on `A` and `C`
depends on `B`.  `C` is declared as the entry so that the dependency-first
traversal produces the full order `[A, B, C]`. -/
def chainGraph : Graph :=
  { nodes :=
      [("A", { agent := .explore, task := "task A", dependencies := none,
               model := none, output := "ao" }),
       ("B", { agent := .plan, task := "task B", dependencies := some ["A"],
               model := none, output := "bo" }),
       ("C", { agent := .generalPurpose, task := "task C",
               dependencies := some ["B"], model := none, output := "co" })],
    entry := some "C" }

/-- A backend that rejects exactly the invocation whose composed prompt
carries B's task text, and resolves everything else. -/
def chainBackend : Backend :=
  fun _ _ prompt _ =>
    if strIncludes prompt "task B" then .error "simulated failure in B"
    else .ok (.vStr "done")

/-- The successful `NodeResult` of `A` in the chain scenario. -/
def chainOkA : NodeResult := ⟨"A", true, .vStr "done", none⟩

/-- The failed `NodeResult` of `B` in the chain scenario. -/
def chainFailB : NodeResult := ⟨"B", false, .vNull, some "simulated failure in B"⟩

/-- The node results of the chain run: `A` succeeded, `B` failed, `C` was
never executed. -/
def chainRs : List (String × NodeResult) := [("A", chainOkA), ("B", chainFailB)]

/-- The final context of the chain run. -/
def chainCtx : ExecutionContext := ⟨[("ao", .vStr "done")], .vNull, ["A"], ["B"]⟩

/-- The `GraphResult` of the chain run. -/
def chainResult : GraphResult := ⟨false, .vNull, chainRs, ⟨3, 1, 1⟩⟩

/-- The single node of the falsy-output scenario: it declares output key
"o". -/
def zeroNode : GraphNode :=
  { agent := .explore, task := "just a task", dependencies := none,
    model := none, output := "o" }

/-- The one-node graph of the falsy-output scenario (no entry declared, so
the dependency-free node is the inferred entry). -/
def zeroGraph : Graph := { nodes := [("n", zeroNode)], entry := none }

/-- A backend that resolves every invocation with the number `0` — a
perfectly valid, but falsy, output value. -/
def zeroBackend : Backend := fun _ _ _ _ => .ok (.vNum 0)

/-- The successful `NodeResult` of the falsy-output run. -/
def zeroRes : NodeResult := ⟨"n", true, .vNum 0, none⟩

/-- The node results of the falsy-output run. -/
def zeroRs : List (String × NodeResult) := [("n", zeroRes)]

/-- The final context of the falsy-output run: `0` is stored under "o". -/
def zeroCtx : ExecutionContext := ⟨[("o", .vNum 0)], .vNull, ["n"], []⟩

/-- The `GraphResult` of the falsy-output run: the stored `0` is collapsed
to `null` by `|| null`. -/
def zeroResult : GraphResult := ⟨true, .vNull, zeroRs, ⟨1, 1, 0⟩⟩
/-- The context of the C2 failing input: the dependency `scan` has
completed and its declared output key "s" holds a value. -/
def c2Ctx : ExecutionContext :=
  { outputs := [("s", .vStr "scan result")], input := .vNull,
    completedNodes := ["scan"], failedNodes := [] }

/-- The consuming node of the C2 failing input: it declares the dependency
id `scan`. -/
def c2Node : GraphNode :=
  { agent := .plan, task := "plan the work", dependencies := some ["scan"],
    model := none, output := "p" }

/-- A node with an explicit `opus` override and the exploration keyword
"scan" in its task text. -/
def overrideNode : GraphNode :=
  { agent := .explore, task := "scan", dependencies := none,
    model := some .opus, output := "o" }
/-! ### Notions for the scheduler correctness claim -/

/-- One dependency edge: `a`'s node lists `b` among its dependencies. -/
def DependsOn (g : Graph) (a b : String) : Prop :=
  ∃ node, lookupNode g a = some node ∧ b ∈ depsOf node

/-- The dependency relation has no cycle: no id transitively depends on
itself. -/
def Acyclic (g : Graph) : Prop :=
  ∀ a, ¬ Relation.TransGen (DependsOn g) a a

/-- Dependency-path reachability: `DepReach g a x` when a chain of
dependency edges leads from `a` to `x` (reflexive). -/
inductive DepReach (g : Graph) : String → String → Prop where
  | refl : ∀ a, DepReach g a a
  | step : ∀ a node b c, lookupNode g a = some node → b ∈ depsOf node →
      DepReach g b c → DepReach g a c

/-- A node is reachable when the traversal can arrive at it from an entry
point by following dependency edges — the traversal's own notion of
reachability (spec 4.2 walks a node's dependencies, not its dependents). -/
inductive ReachableDep (g : Graph) : String → Prop where
  | entry : ∀ id, id ∈ entryNodes g → ReachableDep g id
  | dep : ∀ a b node, ReachableDep g a → lookupNode g a = some node →
      b ∈ depsOf node → ReachableDep g b

/-- Every dependency id declared by any node of the record resolves. -/
def DepsClosed (g : Graph) : Prop :=
  ∀ p ∈ g.nodes, ∀ d ∈ depsOf p.2, (lookupNode g d).isSome = true

/-- Every entry point resolves (inferred entries are record keys by
construction; a declared entry must exist). -/
def EntriesClosed (g : Graph) : Prop :=
  ∀ e ∈ entryNodes g, (lookupNode g e).isSome = true

/-- In `order`, every dependency of every listed node appears strictly
earlier than the node itself. -/
def OrderedDeps (g : Graph) (order : List String) : Prop :=
  ∀ (i : Nat) (x : String), order[i]? = some x →
    ∀ node, lookupNode g x = some node →
    ∀ d ∈ depsOf node, d ∈ order.take i

/-- How many record keys the traversal has not yet visited (the
termination measure of the DFS). -/
def unvisitedCount (g : Graph) (visited : List String) : Nat :=
  ((graphKeys g).toFinset \ visited.toFinset).card

/-- What one successful `visit` call guarantees: the visited set only
grows; the order grows exactly by the newly visited ids (without
duplicates); the visited node is visited; dependencies of newly visited
ids are visited; and every newly visited id is dependency-reachable from
the visited node. -/
def VisitPack (g : Graph) (id : String) (st st' : DfsState) : Prop :=
  (∃ newV, st'.visited = newV ++ st.visited) ∧
  (∃ newO, st'.order = st.order ++ newO ∧ newO.Nodup ∧
    (∀ x, x ∈ newO ↔ (x ∈ st'.visited ∧ ¬ x ∈ st.visited))) ∧
  id ∈ st'.visited ∧
  (∀ x, x ∈ st'.visited → ¬ x ∈ st.visited →
    ∀ node, lookupNode g x = some node → ∀ d ∈ depsOf node, d ∈ st'.visited) ∧
  (∀ x, x ∈ st'.visited → ¬ x ∈ st.visited → DepReach g id x)

/-- The analogue of `VisitPack` for one dependency list (or entry list):
every listed id is visited on success, and every newly visited id is
dependency-reachable from some listed id. -/
def DepsPack (g : Graph) (deps : List String) (st st' : DfsState) : Prop :=
  (∃ newV, st'.visited = newV ++ st.visited) ∧
  (∃ newO, st'.order = st.order ++ newO ∧ newO.Nodup ∧
    (∀ x, x ∈ newO ↔ (x ∈ st'.visited ∧ ¬ x ∈ st.visited))) ∧
  (∀ d ∈ deps, d ∈ st'.visited) ∧
  (∀ x, x ∈ st'.visited → ¬ x ∈ st.visited →
    ∀ node, lookupNode g x = some node → ∀ d ∈ depsOf node, d ∈ st'.visited) ∧
  (∀ x, x ∈ st'.visited → ¬ x ∈ st.visited → ∃ d ∈ deps, DepReach g d x)

/-! ## Helper lemmas -/

/-- The scan inside `prepareDependencyInputs` compares a numeric array
index with a string id under strict equality, so it never hits. -/
theorem enumFind_none (vals : List (Nat × JsValue)) (depId : String) :
    vals.find? (fun p => jsNumStrEq p.1 depId) = none := by
  induction vals with
  | nil => rfl
  | cons v vs ih => simp [List.find?, jsNumStrEq, ih]

/-- A fold whose step returns the accumulator unchanged is the
accumulator. -/
theorem foldl_id {α β : Type} (l : List β) (acc : α) :
    l.foldl (fun a _ => a) acc = acc := by
  induction l generalizing acc with
  | nil => rfl
  | cons b bs ih => exact ih acc

/-- A fold whose step never changes the accumulator returns it unchanged;
specialised to the dependency-input fold. -/
theorem prepare_foldl_fixed (ctx : ExecutionContext) (deps : List String)
    (acc : List (String × JsValue)) :
    deps.foldl
      (fun inputs depId =>
        match (ctx.outputs.map Prod.snd).enum.find?
            (fun p => jsNumStrEq p.1 depId) with
        | some p => recordSet inputs depId p.2
        | none => inputs)
      acc = acc := by
  simp only [enumFind_none]
  exact foldl_id deps acc

/-- `prepareDependencyInputs` returns the empty input map on every node
and every context: the broken index-vs-id comparison never finds a
dependency output. -/
theorem prepareDependencyInputs_empty (node : GraphNode)
    (ctx : ExecutionContext) :
    prepareDependencyInputs node ctx = [] := by
  unfold prepareDependencyInputs
  exact prepare_foldl_fixed ctx (depsOf node) []

/-! ## Claim C1 — cycle handling of `topologicalSort` -/

/-- C1: the claim says `computeOrder` fails with a GraphError on a cycle
reachable from an entry point, and in particular fails on the graph
{x (deps=[y]), y (deps=[x])}.  The code has no in-progress marker and
cannot report a cycle: on that very graph it returns successfully — with
an empty order (and both nodes warned unreachable) when no entry is
declared, and with the order [y, x] when x is the declared entry. -/
theorem c1_cycle_returns_ok :
    topologicalSort cycleGraph = .ok ([], ["x", "y"]) ∧
    topologicalSort cycleGraphEntryX = .ok (["y", "x"], []) :=
  ⟨rfl, rfl⟩

/-! ## Claim C2 — dependency-input gathering -/





/-- C2: the claim says the gathered input map contains, under the
dependency id, the value stored under the dependency's declared output
key.  The code's scan compares the numeric array index with the string id
under `===`, which never holds, so the gathered map is empty on every node
and context — in particular for a node depending on `scan` whose output
key "s" has been written. -/
theorem c2_inputs_always_empty :
    (∀ (node : GraphNode) (ctx : ExecutionContext),
      prepareDependencyInputs node ctx = []) ∧
    recordGet c2Ctx.outputs "s" = some (.vStr "scan result") ∧
    prepareDependencyInputs c2Node c2Ctx = [] :=
  ⟨prepareDependencyInputs_empty, rfl, rfl⟩

/-! ## Claim C3 — spec scenario 1 -/

/-- C3: the claim says the graph {scan (no deps, output "s"),
plan (deps=[scan], output "p")} with entry `scan` yields the order
[scan, plan].  The traversal walks dependency edges only, so from the
entry `scan` it visits nothing but `scan`: the computed order is [scan]
and `plan` is warned unreachable. -/
theorem c3_order_is_scan_only :
    topologicalSort scanPlanGraph = .ok (["scan"], ["plan"]) :=
  rfl

/-! ## Claim C7 — explicit model override -/



/-- C7 counterexample: the claim says the override is returned with
justification "explicit override"; the source's justification string is
"Explicitly specified in node definition". -/
theorem c7_reasoning_not_explicit_override :
    (selectModel overrideNode
      { fileCount := none, complexity := none }).reasoning ≠
      "explicit override" := by
  decide

/-- C7 (amended): a node carrying an explicit model override gets exactly
that model, for every runtime context and task text, with the reasoning
string "Explicitly specified in node definition" and the fixed-workload
cost estimate — the heuristic cascade is never consulted. -/
theorem c7_override_unconditional (node : GraphNode) (ctx : RouterContext)
    (m : ClaudeModel) (h : node.model = some m) :
    selectModel node ctx =
      { agent := node.agent, model := m,
        reasoning := "Explicitly specified in node definition",
        estimatedCost := estimateCost m 10000 2000 } := by
  unfold selectModel
  rw [h]

/-- C7 witness: the override node above (override opus, task "scan")
receives opus, not the exploration tier. -/
theorem c7_override_witness :
    selectModel overrideNode { fileCount := none, complexity := none } =
      { agent := .explore, model := .opus,
        reasoning := "Explicitly specified in node definition",
        estimatedCost := estimateCost .opus 10000 2000 } :=
  c7_override_unconditional overrideNode
    { fileCount := none, complexity := none } .opus rfl

/-! ## Claim C8 — cost monotonicity -/

/-- C8: for fixed non-negative token counts, a tier whose input and output
rates both dominate another's is never estimated cheaper; in particular
haiku ≤ sonnet ≤ opus. -/
theorem c8_estimateCost_monotone (m1 m2 : ClaudeModel) (i o : ℚ)
    (hi : 0 ≤ i) (ho : 0 ≤ o)
    (hin : costPer1MInputTokens m1 ≤ costPer1MInputTokens m2)
    (hout : costPer1MOutputTokens m1 ≤ costPer1MOutputTokens m2) :
    estimateCost m1 i o ≤ estimateCost m2 i o ∧
    estimateCost .haiku i o ≤ estimateCost .sonnet i o ∧
    estimateCost .sonnet i o ≤ estimateCost .opus i o := by
  have key : ∀ a b : ClaudeModel,
      costPer1MInputTokens a ≤ costPer1MInputTokens b →
      costPer1MOutputTokens a ≤ costPer1MOutputTokens b →
      estimateCost a i o ≤ estimateCost b i o := by
    intro a b h1 h2
    unfold estimateCost
    have hi6 : (0:ℚ) ≤ i / 1000000 := by positivity
    have ho6 : (0:ℚ) ≤ o / 1000000 := by positivity
    exact add_le_add (mul_le_mul_of_nonneg_left h1 hi6)
      (mul_le_mul_of_nonneg_left h2 ho6)
  refine ⟨key m1 m2 hin hout, ?_, ?_⟩
  · exact key .haiku .sonnet (by norm_num [costPer1MInputTokens])
      (by norm_num [costPer1MOutputTokens])
  · exact key .sonnet .opus (by norm_num [costPer1MInputTokens])
      (by norm_num [costPer1MOutputTokens])

/-- C8 witness: the estimator at the router's fixed workload (10000 input,
2000 output tokens), haiku vs sonnet. -/
theorem c8_witness :
    estimateCost .haiku 10000 2000 ≤ estimateCost .sonnet 10000 2000 ∧
    estimateCost .sonnet 10000 2000 ≤ estimateCost .opus 10000 2000 := by
  have h := c8_estimateCost_monotone .haiku .sonnet 10000 2000
    (by norm_num) (by norm_num)
    (by norm_num [costPer1MInputTokens])
    (by norm_num [costPer1MOutputTokens])
  exact ⟨h.2.1, h.2.2⟩

/-! ## Structure of a run: the fail-fast loop -/

/-- Master decomposition of a successful `runNodes` loop: the new entries
split into a block of successes followed by at most one failure; the
processed ids are exactly a front segment of the order; the completed and
failed id lists extend accordingly; and when no failure occurred the whole
order was processed. -/
theorem runNodes_master (g : Graph) (backend : Backend) :
    ∀ (order : List String) (ctx : ExecutionContext)
      (acc : List (String × NodeResult)) (ctx' : ExecutionContext)
      (acc' : List (String × NodeResult)),
    runNodes g backend order ctx acc = .ok (ctx', acc') →
    ∃ succEntries failEntries : List (String × NodeResult),
      acc' = acc ++ succEntries ++ failEntries ∧
      ctx'.completedNodes = ctx.completedNodes ++ succEntries.map Prod.fst ∧
      ctx'.failedNodes = ctx.failedNodes ++ failEntries.map Prod.fst ∧
      succEntries.map Prod.fst ++ failEntries.map Prod.fst =
        order.take (succEntries.length + failEntries.length) ∧
      failEntries.length ≤ 1 ∧
      (failEntries = [] → succEntries.length = order.length) ∧
      (∀ p ∈ succEntries, p.2.success = true) ∧
      (∀ p ∈ failEntries, p.2.success = false) := by
  intro order
  induction order with
  | nil =>
    intro ctx acc ctx' acc' h
    simp only [runNodes, Except.ok.injEq, Prod.mk.injEq] at h
    obtain ⟨h1, h2⟩ := h
    subst h1; subst h2
    exact ⟨[], [], by simp⟩
  | cons nodeId rest ih =>
    intro ctx acc ctx' acc' h
    simp only [runNodes] at h
    cases hl : lookupNode g nodeId with
    | none => rw [hl] at h; exact absurd h (by simp)
    | some node =>
      rw [hl] at h
      simp only at h
      cases hs : (executeNode backend nodeId node ctx).success with
      | true =>
        rw [if_pos hs] at h
        obtain ⟨succ', fail', ha, hc, hf, ht, hl1, he, hps, hpf⟩ :=
          ih _ _ _ _ h
        refine ⟨(nodeId, executeNode backend nodeId node ctx) :: succ',
          fail', ?_, ?_, ?_, ?_, hl1, ?_, ?_, hpf⟩
        · simp only [ha]; simp
        · simp only [hc]; simp
        · simp only [hf]
        · simp only [List.map_cons, List.cons_append, List.length_cons]
          have : succ'.length + 1 + fail'.length =
              (succ'.length + fail'.length) + 1 := by omega
          rw [this, List.take_succ_cons, ht]
        · intro hfe
          simp only [List.length_cons, he hfe, List.length_cons]
        · intro p hp
          rcases List.mem_cons.mp hp with h1 | h2
          · rw [h1]; exact hs
          · exact hps p h2
      | false =>
        rw [if_neg (by simp [hs])] at h
        simp only [Except.ok.injEq, Prod.mk.injEq] at h
        obtain ⟨h1, h2⟩ := h
        subst h1; subst h2
        refine ⟨[], [(nodeId, executeNode backend nodeId node ctx)],
          ?_, ?_, ?_, ?_, ?_, ?_, ?_, ?_⟩
        · simp
        · simp
        · simp
        · simp
        · simp
        · intro hfe; cases hfe
        · intro p hp; cases hp
        · intro p hp
          rcases List.mem_cons.mp hp with h1 | h2
          · rw [h1]; simp [hs]
          · cases h2

/-- How `execute` assembles its `GraphResult` from the computed order and
the loop outcome. -/
theorem execute_eq (g : Graph) (backend : Backend) (input : JsValue)
    (order warns : List String) (ctx : ExecutionContext)
    (rs : List (String × NodeResult))
    (hs : topologicalSort g = .ok (order, warns))
    (hr : runNodes g backend order (initialContext input) [] = .ok (ctx, rs)) :
    execute g backend input = .ok
      { success := ctx.failedNodes.length == 0,
        output := extractFinalOutput g ctx order,
        nodeResults := rs,
        metrics := { nodeCount := order.length,
                     successCount := ctx.completedNodes.length,
                     failureCount := ctx.failedNodes.length } } := by
  unfold execute
  rw [hs]
  simp only
  rw [hr]

/-! ## Claim C5 — fail-fast -/

/-- C5: in every run, a node whose backend invocation failed is the last
node with a recorded result, and the recorded ids are a front segment of
the execution order — so no subsequent node of the order is ever executed;
and in the concrete 3-node chain A→B→C whose backend fails on B, the run
records A (success) and B (failure) only, C never executes, and the
overall success flag is false. -/
theorem c5_fail_fast :
    (∀ (g : Graph) (backend : Backend) (input : JsValue)
       (order warns : List String) (ctx : ExecutionContext)
       (rs : List (String × NodeResult)) (R : GraphResult)
       (id : String) (r : NodeResult),
       topologicalSort g = .ok (order, warns) →
       runNodes g backend order (initialContext input) [] = .ok (ctx, rs) →
       execute g backend input = .ok R →
       (id, r) ∈ R.nodeResults → r.success = false →
       ∃ k, R.nodeResults.map Prod.fst = order.take k ∧
         R.nodeResults.getLast? = some (id, r)) ∧
    execute chainGraph chainBackend .vNull = .ok chainResult ∧
    chainResult.success = false ∧
    chainResult.nodeResults.map Prod.fst = ["A", "B"] ∧
    ("C" ∈ chainResult.nodeResults.map Prod.fst → False) ∧
    (("A", chainOkA) ∈ chainResult.nodeResults ∧ chainOkA.success = true) ∧
    (("B", chainFailB) ∈ chainResult.nodeResults ∧ chainFailB.success = false) := by
  refine ⟨?_, rfl, rfl, rfl, by decide, ⟨by simp [chainResult, chainRs], rfl⟩,
    ⟨by simp [chainResult, chainRs], rfl⟩⟩
  intro g backend input order warns ctx rs R id r hs hr he hmem hfail
  have hE := execute_eq g backend input order warns ctx rs hs hr
  rw [he] at hE
  have hR := Except.ok.inj hE
  subst hR
  obtain ⟨succ, fail, ha, hc, hf, ht, hl1, hfe, hps, hpf⟩ :=
    runNodes_master g backend order (initialContext input) [] ctx rs hr
  simp only [List.nil_append, initialContext] at ha hc hf
  simp only at hmem ⊢
  subst ha
  have hinfail : (id, r) ∈ fail := by
    rcases List.mem_append.mp hmem with h1 | h2
    · exact absurd (hps _ h1) (by simp [hfail])
    · exact h2
  have hfail_eq : fail = [(id, r)] := by
    cases fail with
    | nil => cases hinfail
    | cons p t =>
      cases t with
      | nil =>
        rcases List.mem_singleton.mp hinfail with h
        rw [h]
      | cons q t2 => simp at hl1
  subst hfail_eq
  refine ⟨succ.length + 1, ?_, ?_⟩
  · simpa using ht
  · simp

/-- C5 witness: the universal fail-fast statement applied to the concrete
chain run — the recorded ids are the front segment [A, B] of the order
[A, B, C] and the failed B is the last recorded entry. -/
theorem c5_witness :
    ∃ k, chainResult.nodeResults.map Prod.fst = (["A", "B", "C"]).take k ∧
      chainResult.nodeResults.getLast? = some ("B", chainFailB) :=
  c5_fail_fast.1 chainGraph chainBackend .vNull ["A", "B", "C"] [] chainCtx
    chainRs chainResult "B" chainFailB rfl rfl rfl
    (by simp [chainResult, chainRs]) rfl

/-! ## Claim C9 — run invariant -/

/-- C9: in every run the failed-node list (and hence the failure-count
metric) has at most one element, and the recorded node ids are exactly the
completed ids followed by the failed ids — a front segment of the computed
execution order. -/
theorem c9_results_prefix (g : Graph) (backend : Backend) (input : JsValue)
    (order warns : List String) (ctx : ExecutionContext)
    (rs : List (String × NodeResult)) (R : GraphResult)
    (hs : topologicalSort g = .ok (order, warns))
    (hr : runNodes g backend order (initialContext input) [] = .ok (ctx, rs))
    (he : execute g backend input = .ok R) :
    ctx.failedNodes.length ≤ 1 ∧
    R.metrics.failureCount ≤ 1 ∧
    R.nodeResults.map Prod.fst = ctx.completedNodes ++ ctx.failedNodes ∧
    (∃ k, R.nodeResults.map Prod.fst = order.take k) := by
  have hE := execute_eq g backend input order warns ctx rs hs hr
  rw [he] at hE
  have hR := Except.ok.inj hE
  subst hR
  obtain ⟨succ, fail, ha, hc, hf, ht, hl1, hfe, hps, hpf⟩ :=
    runNodes_master g backend order (initialContext input) [] ctx rs hr
  simp only [List.nil_append, initialContext] at ha hc hf
  subst ha
  refine ⟨by rw [hf]; simpa using hl1, by simp only [hf]; simpa using hl1,
    by simp [hc, hf], ?_⟩
  exact ⟨succ.length + fail.length, by simpa using ht⟩

/-- C9 witness: the invariant at the concrete chain run. -/
theorem c9_witness :
    chainCtx.failedNodes.length ≤ 1 ∧
    chainResult.metrics.failureCount ≤ 1 ∧
    chainResult.nodeResults.map Prod.fst =
      chainCtx.completedNodes ++ chainCtx.failedNodes ∧
    (∃ k, chainResult.nodeResults.map Prod.fst = (["A", "B", "C"]).take k) :=
  c9_results_prefix chainGraph chainBackend .vNull ["A", "B", "C"] []
    chainCtx chainRs chainResult rfl rfl rfl

/-! ## Claim C6 — final output and success flag -/

/-- C6 counterexample: a run whose last (and only) ordered node stores the
falsy value `0` under its declared output key "o"; the claim says
`GraphResult.output` is that stored value, but the source's `|| null`
returns `null` instead. -/
theorem c6_counterexample :
    topologicalSort zeroGraph = .ok (["n"], []) ∧
    lookupNode zeroGraph "n" = some zeroNode ∧ zeroNode.output = "o" ∧
    runNodes zeroGraph zeroBackend ["n"] (initialContext .vNull) [] =
      .ok (zeroCtx, zeroRs) ∧
    recordGet zeroCtx.outputs "o" = some (.vNum 0) ∧
    execute zeroGraph zeroBackend .vNull = .ok zeroResult ∧
    zeroResult.output ≠ JsValue.vNum 0 :=
  ⟨rfl, rfl, rfl, rfl, rfl, rfl, by decide⟩

/-- C6 (amended): in every run, `GraphResult.output` is the context value
stored under the declared output key of the last node of the execution
order when that value is present and truthy, and `null` when it is absent
or falsy; and the success flag is true iff every recorded node result
succeeded. -/
theorem c6_output_and_success (g : Graph) (backend : Backend) (input : JsValue)
    (order warns : List String) (ctx : ExecutionContext)
    (rs : List (String × NodeResult)) (R : GraphResult)
    (hs : topologicalSort g = .ok (order, warns))
    (hr : runNodes g backend order (initialContext input) [] = .ok (ctx, rs))
    (he : execute g backend input = .ok R) :
    (∀ lastId node, order.getLast? = some lastId →
      lookupNode g lastId = some node →
      R.output = (match recordGet ctx.outputs node.output with
        | some v => if v.truthy then v else JsValue.vNull
        | none => JsValue.vNull)) ∧
    (R.success = true ↔ ∀ p ∈ R.nodeResults, p.2.success = true) := by
  have hE := execute_eq g backend input order warns ctx rs hs hr
  rw [he] at hE
  have hR := Except.ok.inj hE
  subst hR
  obtain ⟨succ, fail, ha, hc, hf, ht, hl1, hfe, hps, hpf⟩ :=
    runNodes_master g backend order (initialContext input) [] ctx rs hr
  simp only [List.nil_append, initialContext] at ha hc hf
  subst ha
  constructor
  · intro lastId node hlast hnode
    simp only [extractFinalOutput, hlast, hnode]
  · constructor
    · intro hsucc p hp
      have hfail0 : fail = [] := by
        have h0 : ctx.failedNodes.length = 0 := by simpa using hsucc
        rw [hf] at h0
        simpa using h0
      subst hfail0
      have hp2 : p ∈ succ ++ ([] : List (String × NodeResult)) := hp
      simp only [List.append_nil] at hp2
      exact hps p hp2
    · intro hall
      have hfail0 : fail = [] := by
        cases fail with
        | nil => rfl
        | cons q t =>
          have hq := hall q (by simp)
          have hq2 := hpf q (by simp)
          simp_all
      subst hfail0
      simp [hf]

/-- C6 witness: the amended statement at the falsy-output run — the
stored `0` is collapsed to `null`, and the success flag matches the
recorded results. -/
theorem c6_witness :
    zeroResult.output =
      (match recordGet zeroCtx.outputs zeroNode.output with
        | some v => if v.truthy then v else JsValue.vNull
        | none => JsValue.vNull) ∧
    (zeroResult.success = true ↔
      ∀ p ∈ zeroResult.nodeResults, p.2.success = true) := by
  have h := c6_output_and_success zeroGraph zeroBackend .vNull ["n"] []
    zeroCtx zeroRs zeroResult rfl rfl rfl
  exact ⟨h.1 "n" zeroNode rfl rfl, h.2⟩

/-! ## Claim C10 — null on falsy, absent or empty -/

/-- C10: in every run, when the value stored under the last ordered node's
declared output key is absent or falsy, `GraphResult.output` is `null`;
and an empty execution order also yields `null`. -/
theorem c10_falsy_gives_null (g : Graph) (backend : Backend) (input : JsValue)
    (order warns : List String) (ctx : ExecutionContext)
    (rs : List (String × NodeResult)) (R : GraphResult)
    (hs : topologicalSort g = .ok (order, warns))
    (hr : runNodes g backend order (initialContext input) [] = .ok (ctx, rs))
    (he : execute g backend input = .ok R) :
    (order = [] → R.output = JsValue.vNull) ∧
    (∀ lastId node, order.getLast? = some lastId →
      lookupNode g lastId = some node →
      (recordGet ctx.outputs node.output = none → R.output = JsValue.vNull) ∧
      (∀ v, recordGet ctx.outputs node.output = some v → v.truthy = false →
        R.output = JsValue.vNull)) := by
  have hE := execute_eq g backend input order warns ctx rs hs hr
  rw [he] at hE
  have hR := Except.ok.inj hE
  subst hR
  constructor
  · intro hnil
    subst hnil
    simp [extractFinalOutput]
  · intro lastId node hlast hnode
    constructor
    · intro habs
      simp [extractFinalOutput, hlast, hnode, habs]
    · intro v hv htr
      simp [extractFinalOutput, hlast, hnode, hv, htr]

/-- C10 witness: the falsy-output run — `0` stored under "o" is falsy and
the run's headline output is `null`. -/
theorem c10_witness :
    execute zeroGraph zeroBackend .vNull = .ok zeroResult ∧
    recordGet zeroCtx.outputs "o" = some (.vNum 0) ∧
    (JsValue.vNum 0).truthy = false ∧
    zeroResult.output = JsValue.vNull := by
  refine ⟨rfl, rfl, rfl, ?_⟩
  have h := c10_falsy_gives_null zeroGraph zeroBackend .vNull ["n"] []
    zeroCtx zeroRs zeroResult rfl rfl rfl
  exact (h.2 "n" zeroNode rfl rfl).2 (.vNum 0) rfl rfl

/-- Growth of the visited set transfers membership. -/
theorem mem_visited_of_grow {st st' : DfsState} {x : String}
    (h : ∃ newV, st'.visited = newV ++ st.visited) (hx : x ∈ st.visited) :
    x ∈ st'.visited := by
  obtain ⟨newV, hV⟩ := h
  rw [hV]
  exact List.mem_append_right _ hx

/-- `DepsPack` for a successful dependency loop, given `VisitPack` for the
visiting function. -/
theorem visitDeps_pack (g : Graph)
    (vf : String → DfsState → Except String DfsState)
    (hvf : ∀ id st st', vf id st = .ok st' → VisitPack g id st st')
    (parent : String) :
    ∀ (deps : List String) (st st' : DfsState),
    visitDeps g vf parent deps st = .ok st' → DepsPack g deps st st' := by
  intro deps
  induction deps with
  | nil =>
    intro st st' h
    have he := Except.ok.inj h
    subst he
    refine ⟨⟨[], rfl⟩, ⟨[], by simp, List.nodup_nil, ?_⟩, by simp, ?_, ?_⟩
    · intro x; constructor
      · intro hx; cases hx
      · rintro ⟨h1, h2⟩; exact absurd h1 h2
    · intro x h1 h2; exact absurd h1 h2
    · intro x h1 h2; exact absurd h1 h2
  | cons d rest ihd =>
    intro st st' h
    simp only [visitDeps] at h
    by_cases hlk : (lookupNode g d).isNone
    · rw [if_pos hlk] at h; cases h
    · rw [if_neg hlk] at h
      cases hv : vf d st with
      | error e => rw [hv] at h; cases h
      | ok stmid =>
        rw [hv] at h
        have p1 := hvf d st stmid hv
        have p2 := ihd stmid st' h
        obtain ⟨hg1, ⟨newO1, hO1, hN1, hM1⟩, hd1, hc1, hr1⟩ := p1
        obtain ⟨hg2, ⟨newO2, hO2, hN2, hM2⟩, hd2, hc2, hr2⟩ := p2
        refine ⟨?_, ⟨newO1 ++ newO2, ?_, ?_, ?_⟩, ?_, ?_, ?_⟩
        · obtain ⟨nv1, h1⟩ := hg1
          obtain ⟨nv2, h2⟩ := hg2
          exact ⟨nv2 ++ nv1, by rw [h2, h1, List.append_assoc]⟩
        · rw [hO2, hO1, List.append_assoc]
        · rw [List.nodup_append]
          refine ⟨hN1, hN2, ?_⟩
          intro x hx1 hx2
          have h1 := (hM1 x).mp hx1
          have h2 := (hM2 x).mp hx2
          exact h2.2 h1.1
        · intro x
          constructor
          · intro hx
            rcases List.mem_append.mp hx with h1 | h2
            · have := (hM1 x).mp h1
              exact ⟨mem_visited_of_grow hg2 this.1, this.2⟩
            · have := (hM2 x).mp h2
              refine ⟨this.1, fun hmem => this.2 (mem_visited_of_grow hg1 hmem)⟩
          · rintro ⟨h1, h2⟩
            by_cases hmid : x ∈ stmid.visited
            · exact List.mem_append.mpr (.inl ((hM1 x).mpr ⟨hmid, h2⟩))
            · exact List.mem_append.mpr (.inr ((hM2 x).mpr ⟨h1, hmid⟩))
        · intro e he
          rcases List.mem_cons.mp he with h1 | h2
          · subst h1
            exact mem_visited_of_grow hg2 hd1
          · exact hd2 e h2
        · intro x hx hnx node hlx dd hdd
          by_cases hmid : x ∈ stmid.visited
          · exact mem_visited_of_grow hg2 (hc1 x hmid hnx node hlx dd hdd)
          · exact hc2 x hx hmid node hlx dd hdd
        · intro x hx hnx
          by_cases hmid : x ∈ stmid.visited
          · exact ⟨d, List.mem_cons_self _ _, hr1 x hmid hnx⟩
          · obtain ⟨d2, hd2m, hdr⟩ := hr2 x hx hmid
            exact ⟨d2, List.mem_cons_of_mem _ hd2m, hdr⟩

/-- `VisitPack` for every successful `visit` call. -/
theorem visit_pack (g : Graph) :
    ∀ (fuel : Nat) (id : String) (st st' : DfsState),
    visit g fuel id st = .ok st' → VisitPack g id st st' := by
  intro fuel
  induction fuel with
  | zero => intro id st st' h; cases h
  | succ f ih =>
    intro id st st' h
    rw [visit] at h
    by_cases hv : st.visited.contains id
    · rw [if_pos hv] at h
      have he := Except.ok.inj h
      subst he
      refine ⟨⟨[], rfl⟩, ⟨[], by simp, List.nodup_nil, ?_⟩, ?_, ?_, ?_⟩
      · intro x; constructor
        · intro hx; cases hx
        · rintro ⟨h1, h2⟩; exact absurd h1 h2
      · exact List.elem_iff.mp hv
      · intro x h1 h2; exact absurd h1 h2
      · intro x h1 h2; exact absurd h1 h2
    · rw [if_neg hv] at h
      have hnv : ¬ id ∈ st.visited := fun hmem => hv (List.elem_iff.mpr hmem)
      cases hl : lookupNode g id with
      | none => rw [hl] at h; cases h
      | some node =>
        rw [hl] at h
        simp only at h
        cases hd : visitDeps g (visit g f) id (depsOf node)
            ⟨id :: st.visited, st.order⟩ with
        | error e => rw [hd] at h; cases h
        | ok st2 =>
          rw [hd] at h
          have he := Except.ok.inj h
          subst he
          have pack := visitDeps_pack g (visit g f) (ih) id (depsOf node)
            ⟨id :: st.visited, st.order⟩ st2 hd
          obtain ⟨hg2, ⟨newO2, hO2, hN2, hM2⟩, hd2, hc2, hr2⟩ := pack
      -- st' = ⟨st2.visited, st2.order ++ [id]⟩; st1 = ⟨id :: st.visited, st.order⟩
          have hid_st1 : id ∈ (⟨id :: st.visited, st.order⟩ : DfsState).visited :=
            List.mem_cons_self _ _
          have hid2 : id ∈ st2.visited := mem_visited_of_grow hg2 hid_st1
          have hgrow : ∃ newV,
              (⟨st2.visited, st2.order ++ [id]⟩ : DfsState).visited =
                newV ++ st.visited := by
            obtain ⟨nv2, h2⟩ := hg2
            exact ⟨nv2 ++ [id], by simp only [h2]; simp⟩
          have hmem_st1 : ∀ x : String,
              x ∈ (⟨id :: st.visited, st.order⟩ : DfsState).visited ↔
                (x = id ∨ x ∈ st.visited) := by
            intro x; simp
          refine ⟨hgrow, ⟨newO2 ++ [id], ?_, ?_, ?_⟩, hid2, ?_, ?_⟩
          · simp only [hO2]; simp
          · rw [List.nodup_append]
            refine ⟨hN2, List.nodup_singleton id, ?_⟩
            intro x hx1 hx2
            rcases List.mem_singleton.mp hx2 with rfl
            have := (hM2 x).mp hx1
            exact this.2 hid_st1
          · intro x
            constructor
            · intro hx
              rcases List.mem_append.mp hx with h1 | h2
              · have := (hM2 x).mp h1
                refine ⟨this.1, fun hmem => this.2 ?_⟩
                exact List.mem_cons_of_mem _ hmem
              · rcases List.mem_singleton.mp h2 with rfl
                exact ⟨hid2, hnv⟩
            · rintro ⟨h1, h2⟩
              by_cases hxid : x = id
              · subst hxid
                exact List.mem_append.mpr (.inr (List.mem_singleton.mpr rfl))
              · have hx_st1 : ¬ x ∈ (⟨id :: st.visited, st.order⟩ : DfsState).visited := by
                  rw [hmem_st1]
                  rintro (h3 | h3)
                  · exact hxid h3
                  · exact h2 h3
                exact List.mem_append.mpr (.inl ((hM2 x).mpr ⟨h1, hx_st1⟩))
          · intro x hx hnx node2 hlx dd hdd
            by_cases hxid : x = id
            · subst hxid
              rw [hl] at hlx
              have := Option.some.inj hlx
              subst this
              exact hd2 dd hdd
            · have hx_st1 : ¬ x ∈ (⟨id :: st.visited, st.order⟩ : DfsState).visited := by
                rw [hmem_st1]
                rintro (h3 | h3)
                · exact hxid h3
                · exact hnx h3
              exact hc2 x hx hx_st1 node2 hlx dd hdd
          · intro x hx hnx
            by_cases hxid : x = id
            · subst hxid; exact DepReach.refl _
            · have hx_st1 : ¬ x ∈ (⟨id :: st.visited, st.order⟩ : DfsState).visited := by
                rw [hmem_st1]
                rintro (h3 | h3)
                · exact hxid h3
                · exact hnx h3
              obtain ⟨dd, hddm, hdr⟩ := hr2 x hx hx_st1
              exact DepReach.step id node dd x hl hddm hdr

/-- Appending a node all of whose dependencies already occur in the list
preserves the ordering property. -/
theorem orderedDeps_append (g : Graph) (l : List String) (a : String)
    (h : OrderedDeps g l)
    (hdeps : ∀ node, lookupNode g a = some node →
      ∀ d ∈ depsOf node, d ∈ l) :
    OrderedDeps g (l ++ [a]) := by
  intro i x hx node hlx d hd
  rcases lt_trichotomy i l.length with hi | hi | hi
  · rw [List.getElem?_append_left hi] at hx
    have := h i x hx node hlx d hd
    rw [List.take_append_eq_append_take]
    exact List.mem_append.mpr (.inl this)
  · subst hi
    rw [List.getElem?_concat_length] at hx
    have hxa := Option.some.inj hx
    subst hxa
    rw [List.take_append_eq_append_take]
    simp only [List.take_length, Nat.sub_self, List.take_zero, List.append_nil]
    exact hdeps node hlx d hd
  · exfalso
    have hlen : (l ++ [a]).length ≤ i := by
      simp only [List.length_append, List.length_singleton]
      omega
    rw [List.getElem?_eq_none hlen] at hx
    cases hx
/-- A gray node (visited but not ordered) after a pack-respecting call was
already gray before it. -/
theorem gray_mono {st st' : DfsState}
    (h2 : ∃ newO, st'.order = st.order ++ newO ∧ newO.Nodup ∧
      (∀ x, x ∈ newO ↔ (x ∈ st'.visited ∧ ¬ x ∈ st.visited))) :
    ∀ x, x ∈ st'.visited → ¬ x ∈ st'.order →
      (x ∈ st.visited ∧ ¬ x ∈ st.order) := by
  obtain ⟨newO, hO, _, hM⟩ := h2
  intro x hx hnx
  constructor
  · by_contra hxs
    exact hnx (by rw [hO]; exact List.mem_append.mpr (.inr ((hM x).mpr ⟨hx, hxs⟩)))
  · intro hxo
    exact hnx (by rw [hO]; exact List.mem_append.mpr (.inl hxo))

/-- The ordering invariant through a dependency loop, given it for the
visiting function.  The gray hypothesis: every visited-but-unordered id
transitively depends on each listed dependency. -/
theorem visitDeps_ordered (g : Graph)
    (vf : String → DfsState → Except String DfsState)
    (hvf_pack : ∀ id st st', vf id st = .ok st' → VisitPack g id st st')
    (hvf_ord : ∀ id st st', vf id st = .ok st' →
      OrderedDeps g st.order → (∀ x ∈ st.order, x ∈ st.visited) →
      (∀ x, x ∈ st.visited → ¬ x ∈ st.order →
        Relation.TransGen (DependsOn g) x id) →
      OrderedDeps g st'.order ∧ (∀ x ∈ st'.order, x ∈ st'.visited))
    (parent : String) :
    ∀ (deps : List String) (st st' : DfsState),
    visitDeps g vf parent deps st = .ok st' →
    OrderedDeps g st.order → (∀ x ∈ st.order, x ∈ st.visited) →
    (∀ x, x ∈ st.visited → ¬ x ∈ st.order → ∀ d ∈ deps,
      Relation.TransGen (DependsOn g) x d) →
    OrderedDeps g st'.order ∧ (∀ x ∈ st'.order, x ∈ st'.visited) := by
  intro deps
  induction deps with
  | nil =>
    intro st st' h hord hsub hgray
    have he := Except.ok.inj h
    subst he
    exact ⟨hord, hsub⟩
  | cons d rest ihd =>
    intro st st' h hord hsub hgray
    simp only [visitDeps] at h
    by_cases hlk : (lookupNode g d).isNone
    · rw [if_pos hlk] at h; cases h
    · rw [if_neg hlk] at h
      cases hv : vf d st with
      | error e => rw [hv] at h; cases h
      | ok stmid =>
        rw [hv] at h
        have hmid := hvf_ord d st stmid hv hord hsub
          (fun x hx hnx => hgray x hx hnx d (List.mem_cons_self _ _))
        have hpack := hvf_pack d st stmid hv
        refine ihd stmid st' h hmid.1 hmid.2 ?_
        intro x hx hnx d2 hd2
        have hback := gray_mono hpack.2.1 x hx hnx
        exact hgray x hback.1 hback.2 d2 (List.mem_cons_of_mem _ hd2)

/-- The ordering invariant through a successful `visit`: with an acyclic
dependency relation, the produced order keeps every dependency strictly
before its dependent. -/
theorem visit_ordered (g : Graph) (hA : Acyclic g) :
    ∀ (fuel : Nat) (id : String) (st st' : DfsState),
    visit g fuel id st = .ok st' →
    OrderedDeps g st.order → (∀ x ∈ st.order, x ∈ st.visited) →
    (∀ x, x ∈ st.visited → ¬ x ∈ st.order →
      Relation.TransGen (DependsOn g) x id) →
    OrderedDeps g st'.order ∧ (∀ x ∈ st'.order, x ∈ st'.visited) := by
  intro fuel
  induction fuel with
  | zero => intro id st st' h; cases h
  | succ f ih =>
    intro id st st' h hord hsub hgray
    rw [visit] at h
    by_cases hv : st.visited.contains id
    · rw [if_pos hv] at h
      have he := Except.ok.inj h
      subst he
      exact ⟨hord, hsub⟩
    · rw [if_neg hv] at h
      have hnv : ¬ id ∈ st.visited := fun hmem => hv (List.elem_iff.mpr hmem)
      cases hl : lookupNode g id with
      | none => rw [hl] at h; cases h
      | some node =>
        rw [hl] at h
        simp only at h
        cases hd : visitDeps g (visit g f) id (depsOf node)
            ⟨id :: st.visited, st.order⟩ with
        | error e => rw [hd] at h; cases h
        | ok st2 =>
          rw [hd] at h
          have he := Except.ok.inj h
          subst he
          have hdeppack := visitDeps_pack g (visit g f) (visit_pack g f) id
            (depsOf node) ⟨id :: st.visited, st.order⟩ st2 hd
          have hgray1 : ∀ x,
              x ∈ (⟨id :: st.visited, st.order⟩ : DfsState).visited →
              ¬ x ∈ (⟨id :: st.visited, st.order⟩ : DfsState).order →
              ∀ dd ∈ depsOf node, Relation.TransGen (DependsOn g) x dd := by
            intro x hx hnx dd hdd
            rcases List.mem_cons.mp hx with rfl | hx2
            · exact Relation.TransGen.single ⟨node, hl, hdd⟩
            · exact Relation.TransGen.tail (hgray x hx2 hnx) ⟨node, hl, hdd⟩
          have hord2 := visitDeps_ordered g (visit g f) (visit_pack g f)
            (ih) id (depsOf node) ⟨id :: st.visited, st.order⟩ st2 hd
            hord (fun x hx => List.mem_cons_of_mem _ (hsub x hx)) hgray1
          constructor
          · refine orderedDeps_append g st2.order id hord2.1 ?_
            intro node2 hl2 dd hdd
            rw [hl] at hl2
            have := Option.some.inj hl2
            subst this
            by_contra hdo
            have hgrayd := gray_mono hdeppack.2.1 dd
              (hdeppack.2.2.1 dd hdd) hdo
            rcases List.mem_cons.mp hgrayd.1 with rfl | hdold
            · exact hA dd (Relation.TransGen.single ⟨node, hl, hdd⟩)
            · exact hA dd (Relation.TransGen.tail
                (hgray dd hdold hgrayd.2) ⟨node, hl, hdd⟩)
          · intro x hx
            rcases List.mem_append.mp hx with h1 | h2
            · exact hord2.2 x h1
            · rcases List.mem_singleton.mp h2 with rfl
              exact mem_visited_of_grow hdeppack.1 (List.mem_cons_self _ _)

/-- A successful record lookup exhibits a record entry. -/
theorem recordGet_mem {α : Type} {r : List (String × α)} {k : String} {v : α}
    (h : recordGet r k = some v) : (k, v) ∈ r := by
  unfold recordGet at h
  cases hf : r.find? (fun p => p.1 == k) with
  | none => rw [hf] at h; cases h
  | some p =>
    rw [hf] at h
    have hp := List.mem_of_find?_eq_some hf
    have hpred := List.find?_some hf
    have hk : p.1 = k := by simpa using hpred
    have hv : p.2 = v := Option.some.inj h
    have : p = (k, v) := by
      cases p
      simp_all
    rw [this] at hp
    exact hp

/-- A resolvable id is a record key. -/
theorem lookup_mem_keys {g : Graph} {id : String} {node : GraphNode}
    (h : lookupNode g id = some node) : id ∈ graphKeys g := by
  have := recordGet_mem h
  exact List.mem_map.mpr ⟨(id, node), this, rfl⟩

/-- Growing the visited list cannot increase the unvisited count. -/
theorem unvisitedCount_mono {g : Graph} {v v' : List String}
    (h : ∃ newV, v' = newV ++ v) :
    unvisitedCount g v' ≤ unvisitedCount g v := by
  obtain ⟨newV, hV⟩ := h
  subst hV
  apply Finset.card_le_card
  apply Finset.sdiff_subset_sdiff (Finset.Subset.refl _)
  intro x hx
  rw [List.mem_toFinset] at hx ⊢
  exact List.mem_append_right _ hx

/-- Visiting a fresh record key strictly decreases the unvisited count. -/
theorem unvisitedCount_strict {g : Graph} {v : List String} {id : String}
    (hk : id ∈ graphKeys g) (hnv : ¬ id ∈ v) :
    unvisitedCount g (id :: v) < unvisitedCount g v := by
  apply Finset.card_lt_card
  rw [Finset.ssubset_iff_of_subset]
  · refine ⟨id, ?_, ?_⟩
    · rw [Finset.mem_sdiff, List.mem_toFinset, List.mem_toFinset]
      exact ⟨hk, hnv⟩
    · rw [Finset.mem_sdiff, List.mem_toFinset]
      rintro ⟨-, hmem⟩
      exact hmem (List.mem_toFinset.mpr (List.mem_cons_self _ _))
  · apply Finset.sdiff_subset_sdiff (Finset.Subset.refl _)
    intro x hx
    rw [List.mem_toFinset] at hx ⊢
    exact List.mem_cons_of_mem _ hx

/-- The dependency loop cannot fail when every listed id resolves, the
visiting function cannot fail below the bound, and the bound dominates the
unvisited count. -/
theorem visitDeps_ok (g : Graph)
    (vf : String → DfsState → Except String DfsState) (n : Nat)
    (hvf_ok : ∀ id st, (lookupNode g id).isSome = true →
      unvisitedCount g st.visited < n → ∃ st', vf id st = .ok st')
    (hvf_pack : ∀ id st st', vf id st = .ok st' → VisitPack g id st st')
    (parent : String) :
    ∀ (deps : List String) (st : DfsState),
    (∀ d ∈ deps, (lookupNode g d).isSome = true) →
    unvisitedCount g st.visited < n →
    ∃ st', visitDeps g vf parent deps st = .ok st' := by
  intro deps
  induction deps with
  | nil => intro st hres hcnt; exact ⟨st, rfl⟩
  | cons d rest ihd =>
    intro st hres hcnt
    have hd := hres d (List.mem_cons_self _ _)
    obtain ⟨stmid, hmid⟩ := hvf_ok d st hd hcnt
    have hcnt2 : unvisitedCount g stmid.visited < n :=
      lt_of_le_of_lt (unvisitedCount_mono (hvf_pack d st stmid hmid).1) hcnt
    obtain ⟨st', h'⟩ := ihd stmid
      (fun d2 hd2 => hres d2 (List.mem_cons_of_mem _ hd2)) hcnt2
    refine ⟨st', ?_⟩
    simp only [visitDeps]
    rw [if_neg (by simp [Option.isNone_iff_eq_none] at hd ⊢; exact
      Option.isSome_iff_exists.mp hd |>.elim (fun a ha => by simp [ha]))]
    rw [hmid]
    exact h'

/-- `visit` cannot fail on a resolvable id when the fuel dominates the
unvisited count and all declared dependencies resolve. -/
theorem visit_ok (g : Graph) (hD : DepsClosed g) :
    ∀ (fuel : Nat) (id : String) (st : DfsState),
    (lookupNode g id).isSome = true →
    unvisitedCount g st.visited < fuel →
    ∃ st', visit g fuel id st = .ok st' := by
  intro fuel
  induction fuel with
  | zero => intro id st hsome hcnt; omega
  | succ f ih =>
    intro id st hsome hcnt
    by_cases hv : st.visited.contains id
    · exact ⟨st, by rw [visit, if_pos hv]⟩
    · have hnv : ¬ id ∈ st.visited := fun hmem => hv (List.elem_iff.mpr hmem)
      obtain ⟨node, hl⟩ := Option.isSome_iff_exists.mp hsome
      have hmem := recordGet_mem hl
      have hres : ∀ d ∈ depsOf node, (lookupNode g d).isSome = true :=
        fun d hd => hD (id, node) hmem d hd
      have hcnt1 : unvisitedCount g (id :: st.visited) < f := by
        have h1 := unvisitedCount_strict (lookup_mem_keys hl) hnv
        omega
      obtain ⟨st2, hd2⟩ := visitDeps_ok g (visit g f) f ih (visit_pack g f)
        id (depsOf node) ⟨id :: st.visited, st.order⟩ hres hcnt1
      refine ⟨⟨st2.visited, st2.order ++ [id]⟩, ?_⟩
      rw [visit, if_neg hv, hl]
      simp only
      rw [hd2]

/-- Composing one visited id's pack with a pack for the remaining ids. -/
theorem pack_compose (g : Graph) (d : String) (rest : List String)
    {st stmid st' : DfsState}
    (p1 : VisitPack g d st stmid) (p2 : DepsPack g rest stmid st') :
    DepsPack g (d :: rest) st st' := by
  obtain ⟨hg1, ⟨newO1, hO1, hN1, hM1⟩, hd1, hc1, hr1⟩ := p1
  obtain ⟨hg2, ⟨newO2, hO2, hN2, hM2⟩, hd2, hc2, hr2⟩ := p2
  refine ⟨?_, ⟨newO1 ++ newO2, ?_, ?_, ?_⟩, ?_, ?_, ?_⟩
  · obtain ⟨nv1, h1⟩ := hg1
    obtain ⟨nv2, h2⟩ := hg2
    exact ⟨nv2 ++ nv1, by rw [h2, h1, List.append_assoc]⟩
  · rw [hO2, hO1, List.append_assoc]
  · rw [List.nodup_append]
    refine ⟨hN1, hN2, ?_⟩
    intro x hx1 hx2
    have h1 := (hM1 x).mp hx1
    have h2 := (hM2 x).mp hx2
    exact h2.2 h1.1
  · intro x
    constructor
    · intro hx
      rcases List.mem_append.mp hx with h1 | h2
      · have := (hM1 x).mp h1
        exact ⟨mem_visited_of_grow hg2 this.1, this.2⟩
      · have := (hM2 x).mp h2
        refine ⟨this.1, fun hmem => this.2 (mem_visited_of_grow hg1 hmem)⟩
    · rintro ⟨h1, h2⟩
      by_cases hmid : x ∈ stmid.visited
      · exact List.mem_append.mpr (.inl ((hM1 x).mpr ⟨hmid, h2⟩))
      · exact List.mem_append.mpr (.inr ((hM2 x).mpr ⟨h1, hmid⟩))
  · intro e he
    rcases List.mem_cons.mp he with h1 | h2
    · subst h1
      exact mem_visited_of_grow hg2 hd1
    · exact hd2 e h2
  · intro x hx hnx node hlx dd hdd
    by_cases hmid : x ∈ stmid.visited
    · exact mem_visited_of_grow hg2 (hc1 x hmid hnx node hlx dd hdd)
    · exact hc2 x hx hmid node hlx dd hdd
  · intro x hx hnx
    by_cases hmid : x ∈ stmid.visited
    · exact ⟨d, List.mem_cons_self _ _, hr1 x hmid hnx⟩
    · obtain ⟨d2, hd2m, hdr⟩ := hr2 x hx hmid
      exact ⟨d2, List.mem_cons_of_mem _ hd2m, hdr⟩

/-- The pack for the entry-point loop. -/
theorem visitEntries_pack (g : Graph) :
    ∀ (entries : List String) (st st' : DfsState),
    visitEntries g entries st = .ok st' → DepsPack g entries st st' := by
  intro entries
  induction entries with
  | nil =>
    intro st st' h
    have he := Except.ok.inj h
    subst he
    refine ⟨⟨[], rfl⟩, ⟨[], by simp, List.nodup_nil, ?_⟩, by simp, ?_, ?_⟩
    · intro x; constructor
      · intro hx; cases hx
      · rintro ⟨h1, h2⟩; exact absurd h1 h2
    · intro x h1 h2; exact absurd h1 h2
    · intro x h1 h2; exact absurd h1 h2
  | cons e rest ihe =>
    intro st st' h
    simp only [visitEntries] at h
    cases hv : visit g (sortFuel g) e st with
    | error err => rw [hv] at h; cases h
    | ok stmid =>
      rw [hv] at h
      exact pack_compose g e rest (visit_pack g (sortFuel g) e st stmid hv)
        (ihe stmid st' h)

/-- The ordering invariant through the entry-point loop, starting from a
state with no gray nodes. -/
theorem visitEntries_ordered (g : Graph) (hA : Acyclic g) :
    ∀ (entries : List String) (st st' : DfsState),
    visitEntries g entries st = .ok st' →
    OrderedDeps g st.order → (∀ x ∈ st.order, x ∈ st.visited) →
    (∀ x ∈ st.visited, x ∈ st.order) →
    OrderedDeps g st'.order ∧ (∀ x ∈ st'.order, x ∈ st'.visited) ∧
      (∀ x ∈ st'.visited, x ∈ st'.order) := by
  intro entries
  induction entries with
  | nil =>
    intro st st' h hord hsub hnogray
    have he := Except.ok.inj h
    subst he
    exact ⟨hord, hsub, hnogray⟩
  | cons e rest ihe =>
    intro st st' h hord hsub hnogray
    simp only [visitEntries] at h
    cases hv : visit g (sortFuel g) e st with
    | error err => rw [hv] at h; cases h
    | ok stmid =>
      rw [hv] at h
      have hpack := visit_pack g (sortFuel g) e st stmid hv
      have hmid := visit_ordered g hA (sortFuel g) e st stmid hv hord hsub
        (fun x hx hnx => absurd (hnogray x hx) hnx)
      refine ihe stmid st' h hmid.1 hmid.2 ?_
      intro x hx
      obtain ⟨newO, hO, hN, hM⟩ := hpack.2.1
      by_cases hold : x ∈ st.visited
      · rw [hO]
        exact List.mem_append.mpr (.inl (hnogray x hold))
      · rw [hO]
        exact List.mem_append.mpr (.inr ((hM x).mpr ⟨hx, hold⟩))

/-- The unvisited count never exceeds the number of record entries. -/
theorem unvisitedCount_le (g : Graph) (v : List String) :
    unvisitedCount g v ≤ g.nodes.length := by
  calc unvisitedCount g v ≤ (graphKeys g).toFinset.card :=
        Finset.card_le_card (Finset.sdiff_subset)
    _ ≤ (graphKeys g).length := List.toFinset_card_le _
    _ = g.nodes.length := List.length_map _ _

/-- The entry loop cannot fail when every entry and every declared
dependency resolves. -/
theorem visitEntries_ok (g : Graph) (hD : DepsClosed g) :
    ∀ (entries : List String) (st : DfsState),
    (∀ e ∈ entries, (lookupNode g e).isSome = true) →
    ∃ st', visitEntries g entries st = .ok st' := by
  intro entries
  induction entries with
  | nil => intro st hres; exact ⟨st, rfl⟩
  | cons e rest ihe =>
    intro st hres
    obtain ⟨stmid, hmid⟩ := visit_ok g hD (sortFuel g) e st
      (hres e (List.mem_cons_self _ _))
      (lt_of_le_of_lt (unvisitedCount_le g st.visited)
        (Nat.lt_succ_self _))
    obtain ⟨st', h'⟩ := ihe stmid
      (fun e2 he2 => hres e2 (List.mem_cons_of_mem _ he2))
    refine ⟨st', ?_⟩
    simp only [visitEntries]
    rw [hmid]
    exact h'

/-- Dependency paths preserve traversal reachability. -/
theorem reachable_of_depReach {g : Graph} {a x : String}
    (ha : ReachableDep g a) (hp : DepReach g a x) : ReachableDep g x := by
  induction hp with
  | refl b => exact ha
  | step b node c y hl hc hrest ihr =>
    exact ihr (ReachableDep.dep b c node ha hl hc)

/-- A rank function that strictly drops along dependency edges witnesses
acyclicity. -/
theorem acyclic_of_rank (g : Graph) (rank : String → Nat)
    (h : ∀ a b, DependsOn g a b → rank b < rank a) : Acyclic g := by
  intro a hcyc
  have hlt : ∀ x y, Relation.TransGen (DependsOn g) x y → rank y < rank x := by
    intro x y h2
    induction h2 with
    | single h3 => exact h _ _ h3
    | tail _ h4 ihr => exact lt_trans (h _ _ h4) ihr
  exact absurd (hlt a a hcyc) (lt_irrefl _)

/-- C4: for every graph whose dependency relation is acyclic and whose
dependency ids (and entry points) all resolve, `topologicalSort` succeeds;
the order lists exactly the ids reachable from an entry point along
dependency edges, each exactly once; every dependency of a listed node
appears strictly earlier than the node; and the never-visited keys are
returned as the unreachable warning list rather than failing the call. -/
theorem c4_computeOrder_correct (g : Graph) (hA : Acyclic g)
    (hD : DepsClosed g) (hE : EntriesClosed g) :
    ∃ (order unreach : List String),
      topologicalSort g = .ok (order, unreach) ∧
      order.Nodup ∧
      (∀ id, id ∈ order ↔ ReachableDep g id) ∧
      OrderedDeps g order ∧
      (∀ k, k ∈ unreach ↔ (k ∈ graphKeys g ∧ ¬ k ∈ order)) := by
  obtain ⟨stF, hrun⟩ := visitEntries_ok g hD (entryNodes g) ⟨[], []⟩ hE
  obtain ⟨hgrow, ⟨newO, hO, hN, hM⟩, hent, hclo, hreach⟩ :=
    visitEntries_pack g (entryNodes g) ⟨[], []⟩ stF hrun
  have hord := visitEntries_ordered g hA (entryNodes g) ⟨[], []⟩ stF hrun
    (fun i x hx => by cases hx) (fun x hx => by cases hx) (fun x hx => by cases hx)
  simp only [List.nil_append] at hO
  have hOV : ∀ x, x ∈ stF.order ↔ x ∈ stF.visited := by
    intro x
    rw [hO]
    constructor
    · intro hx
      exact ((hM x).mp hx).1
    · intro hx
      exact (hM x).mpr ⟨hx, by intro hc; cases hc⟩
  refine ⟨stF.order,
    (graphKeys g).filter (fun k => !stF.visited.contains k), ?_, ?_, ?_, ?_, ?_⟩
  · unfold topologicalSort
    rw [hrun]
  · rw [hO]; exact hN
  · intro id
    constructor
    · intro hid
      obtain ⟨e, hem, hdr⟩ := hreach id ((hOV id).mp hid) (by intro hc; cases hc)
      exact reachable_of_depReach (ReachableDep.entry e hem) hdr
    · intro hr
      induction hr with
      | entry e hem => exact (hOV e).mpr (hent e hem)
      | dep a b node hra hl hb ihr =>
        exact (hOV b).mpr
          (hclo a ((hOV a).mp ihr) (by intro hc; cases hc) node hl b hb)
  · exact hord.1
  · intro k
    rw [List.mem_filter]
    constructor
    · rintro ⟨hk, hc⟩
      refine ⟨hk, ?_⟩
      intro hko
      have hv := (hOV k).mp hko
      rw [Bool.not_eq_true', ← Bool.not_eq_true] at hc
      exact hc (List.elem_iff.mpr hv)
    · rintro ⟨hk, hko⟩
      refine ⟨hk, ?_⟩
      rw [Bool.not_eq_true', ← Bool.not_eq_true]
      intro hc
      exact hko ((hOV k).mpr (List.elem_iff.mp hc))

/-- The scan/plan graph has a dependency rank: every edge goes from "plan"
to "scan". -/
theorem scanPlan_rank_drop :
    ∀ a b, DependsOn scanPlanGraph a b →
      (fun s => if s = "plan" then 1 else 0) b <
        (fun s => if s = "plan" then 1 else 0) a := by
  rintro a b ⟨node, hl, hd⟩
  have hmem := recordGet_mem hl
  simp only [scanPlanGraph, List.mem_cons, List.mem_singleton] at hmem
  rcases hmem with ⟨rfl, rfl⟩ | ⟨rfl, rfl⟩ | h3
  · simp [depsOf] at hd
  · simp only [depsOf, Option.getD_some, List.mem_singleton] at hd
    subst hd
    simp
  · cases h3

/-- C4 witness: the claim theorem applied to the scan/plan graph, whose
acyclicity is witnessed by a rank function and whose closure conditions
are checked by evaluation. -/
theorem c4_witness :
    ∃ (order unreach : List String),
      topologicalSort scanPlanGraph = .ok (order, unreach) ∧
      order.Nodup ∧
      (∀ id, id ∈ order ↔ ReachableDep scanPlanGraph id) ∧
      OrderedDeps scanPlanGraph order ∧
      (∀ k, k ∈ unreach ↔ (k ∈ graphKeys scanPlanGraph ∧ ¬ k ∈ order)) :=
  c4_computeOrder_correct scanPlanGraph
    (acyclic_of_rank scanPlanGraph _ scanPlan_rank_drop)
    (by unfold DepsClosed; decide) (by unfold EntriesClosed; decide)
